import Mathlib

/-
Verification of the matching and settlement core of a single-market
cryptocurrency trading simulator (classes `Wallet`, `OrderBook`,
`OrderBookEntry`, `CSVReader` and the `ExtendedWallet` settlement helper of
`main.cpp`).

Modelling conventions of this shallow embedding:

* C++ `double` prices/amounts are modelled as exact rationals `ℚ`; the claims
  under study are control-flow and order-theoretic properties that do not
  hinge on binary floating point rounding.
* `std::string` comparison (`operator<` and friends) is byte-wise
  lexicographic; it is modelled by an executable lexicographic comparison on
  the character lists of Lean `String`s.
* `std::map<std::string, double>` is modelled as an association list; its
  `operator[]` default-constructs an absent entry at `0`, which the embedding
  mirrors.
* Reads with undefined behaviour (out-of-bounds `std::vector` indexing such as
  `orders[0]` on an empty vector, or `currs[1]` of a one-token split) make the
  enclosing operation return `none` / have no defined result.
* `std::sort` guarantees only that the result is a permutation of the input
  that is sorted with respect to the comparator; it is NOT guaranteed to be
  stable.  Operations whose visible behaviour depends on the chosen
  permutation (`insertOrder`, `matchAsksToBids`) are therefore embedded as
  relations between input state and allowed results.
* Exceptions (`throw std::exception()` in `Wallet::insertCurrency`) are
  modelled with `Option`: a throwing call returns `none` and mutates nothing.
-/

namespace MerkelRex

-- Byte-wise lexicographic string comparison (std::string operator<)

/-- Lexicographic strict comparison of character lists, mirroring
`std::string::operator<` (byte-wise lexicographic comparison). -/
def charListLt : List Char → List Char → Bool
  | [], [] => false
  | [], _ :: _ => true
  | _ :: _, [] => false
  | a :: as, b :: bs => if a < b then true else if b < a then false else charListLt as bs

/-- Strict lexicographic order on strings, as used by `std::string::operator<`
and (with arguments swapped) `operator>`. -/
def strLt (a b : String) : Prop := charListLt a.data b.data = true

/-- Reflexive lexicographic order on strings: `a ≤ b` iff not `b < a`. -/
def strLe (a b : String) : Prop := charListLt b.data a.data = false

instance (a b : String) : Decidable (strLt a b) := by unfold strLt; infer_instance

instance (a b : String) : Decidable (strLe a b) := by unfold strLe; infer_instance

/-- Inner loop of `CSVReader::tokenise`: `acc` holds the (reversed) characters
of the token currently being scanned.  On reaching a separator the token is
emitted; scanning stops (the C++ `start == csvLine.length() || start == end`
break) when the separator ends the line or is immediately followed by another
separator. -/
def tokeniseAux (sep : Char) : List Char → List Char → List (List Char)
  | acc, [] => [acc.reverse]
  | acc, c :: cs =>
    if c = sep then
      match cs with
      | [] => [acc.reverse]
      | d :: _ => if d = sep then [acc.reverse] else acc.reverse :: tokeniseAux sep [] cs
    else tokeniseAux sep (c :: acc) cs

/-- Model of `CSVReader::tokenise`: splits `csvLine` at `separator` after skipping
leading separators (`find_first_not_of`); scanning stops at the end of the
line or at two adjacent separators, exactly as the C++ index loop does. -/
def tokenise (csvLine : String) (separator : Char) : List String :=
  match csvLine.data.dropWhile (fun x => x == separator) with
  | [] => []
  | c :: cs => (tokeniseAux separator [] (c :: cs)).map (fun l => String.mk l)

-- Data model: OrderBookType and OrderBookEntry

/-- The closed set of entry sides (`enum class OrderBookType`). -/
inductive OrderBookType where
  | bid
  | ask
  | unknown
  | asksale
  | bidsale
  deriving DecidableEq, Repr

/-- One resting order or one produced trade (`class OrderBookEntry`). -/
structure OrderBookEntry where
  price : ℚ
  amount : ℚ
  timestamp : String
  product : String
  orderType : OrderBookType
  username : String := "dataset"
  deriving DecidableEq, Repr

/-- Comparator `OrderBookEntry::compareByTimestamp` (strict `<` on timestamps). -/
def compareByTimestamp (e1 e2 : OrderBookEntry) : Prop :=
  strLt e1.timestamp e2.timestamp

/-- Comparator `OrderBookEntry::compareByPriceAsc`. -/
def compareByPriceAsc (e1 e2 : OrderBookEntry) : Prop := e1.price < e2.price

/-- Comparator `OrderBookEntry::compareByPriceDesc`. -/
def compareByPriceDesc (e1 e2 : OrderBookEntry) : Prop := e2.price < e1.price

instance (e1 e2 : OrderBookEntry) : Decidable (compareByTimestamp e1 e2) := by
  unfold compareByTimestamp; infer_instance

instance (e1 e2 : OrderBookEntry) : Decidable (compareByPriceAsc e1 e2) := by
  unfold compareByPriceAsc; infer_instance

instance (e1 e2 : OrderBookEntry) : Decidable (compareByPriceDesc e1 e2) := by
  unfold compareByPriceDesc; infer_instance

-- Wallet

/-- The wallet's `std::map<std::string, double>` of per-currency balances,
as an association list. -/
abbrev Wallet := List (String × ℚ)

/-- Balance lookup (`currencies.count` / read access). -/
def balLookup (w : Wallet) (typ : String) : Option ℚ :=
  (w.find? (fun p => p.1 == typ)).map (fun p => p.2)

/-- Assignment `currencies[type] = v`: overwrite an existing entry or create a new one. -/
def setBal (w : Wallet) (typ : String) (v : ℚ) : Wallet :=
  match w with
  | [] => [(typ, v)]
  | p :: rest => if p.1 = typ then (typ, v) :: rest else p :: setBal rest typ v

/-- The balance read through `std::map::operator[]`, which default-constructs
an absent entry at `0`. -/
def bal (w : Wallet) (typ : String) : ℚ := (balLookup w typ).getD 0

/-- Model of `Wallet::containsCurrency`. -/
def containsCurrency (w : Wallet) (typ : String) (amount : ℚ) : Bool :=
  match balLookup w typ with
  | none => false
  | some b => decide (amount ≤ b)

/-- Model of `Wallet::insertCurrency`; a negative amount throws (`none`), otherwise the
balance (0 for an unknown currency) is increased. -/
def insertCurrency (w : Wallet) (typ : String) (amount : ℚ) : Option Wallet :=
  if amount < 0 then none
  else some (setBal w typ ((balLookup w typ).getD 0 + amount))

/-- Model of `Wallet::removeCurrency`: returns `false` without mutation for a negative
amount, an unknown currency, or an insufficient balance; otherwise subtracts
and returns `true`. -/
def removeCurrency (w : Wallet) (typ : String) (amount : ℚ) : Bool × Wallet :=
  if amount < 0 then (false, w)
  else if (balLookup w typ).isNone then (false, w)
  else if containsCurrency w typ amount then
    (true, setBal w typ (bal w typ - amount))
  else (false, w)

/-- Model of `ExtendedWallet::canFulfillOrder`: splits the product at the slash and
checks the base (for an ask) or quote (for a bid) balance.  The unchecked
`currs[0]` / `currs[1]` accesses are undefined when the split is too short,
which the embedding reports as `none`. -/
def canFulfillOrder (w : Wallet) (order : OrderBookEntry) : Option Bool :=
  let currs := tokenise order.product '/'
  match order.orderType with
  | .ask =>
    match currs with
    | base :: _ => some (containsCurrency w base order.amount)
    | [] => none
  | .bid =>
    match currs with
    | _ :: quote :: _ => some (containsCurrency w quote (order.amount * order.price))
    | _ => none
  | _ => some false

/-- Model of `ExtendedWallet::processSale`: settlement of a trade.  For an `asksale`
the base currency is debited by the amount and the quote currency credited by
`amount * price`; for a `bidsale` the converse.  Both balance updates go
through `std::map::operator[]`, creating absent entries at `0`, and no funds
check is performed.  The unchecked `currs[0]` / `currs[1]` accesses are
undefined when the split is too short (`none`). -/
def processSale (w : Wallet) (sale : OrderBookEntry) : Option Wallet :=
  let currs := tokenise sale.product '/'
  match sale.orderType with
  | .asksale =>
    match currs with
    | base :: quote :: _ =>
      some (setBal (setBal w base (bal w base - sale.amount)) quote
        (bal (setBal w base (bal w base - sale.amount)) quote + sale.amount * sale.price))
    | _ => none
  | .bidsale =>
    match currs with
    | base :: quote :: _ =>
      some (setBal (setBal w base (bal w base + sale.amount)) quote
        (bal (setBal w base (bal w base + sale.amount)) quote - sale.amount * sale.price))
    | _ => none
  | _ => some w

-- OrderBook

/-- The mock seed data loaded by the `OrderBook` constructor. -/
def seedOrders : List OrderBookEntry :=
  [⟨10000, 0.5, "2020/03/17 17:01:24", "BTC/USDT", .bid, "dataset"⟩,
   ⟨10500, 0.2, "2020/03/17 17:01:24", "BTC/USDT", .ask, "dataset"⟩,
   ⟨10100, 1.0, "2020/03/17 17:01:24", "BTC/USDT", .bid, "dataset"⟩,
   ⟨200, 50, "2020/03/17 17:01:30", "ETH/USDT", .ask, "dataset"⟩,
   ⟨190, 10, "2020/03/17 17:01:30", "ETH/USDT", .bid, "dataset"⟩]

/-- Model of `OrderBook::getOrders`: all stored entries matching side, product and
timestamp, in storage order. -/
def getOrders (orders : List OrderBookEntry) (type : OrderBookType)
    (product timestamp : String) : List OrderBookEntry :=
  orders.filter (fun e =>
    decide (e.orderType = type ∧ e.product = product ∧ e.timestamp = timestamp))

/-- Model of `OrderBook::getHighPrice`: linear scan for the maximum price, seeded with
`orders[0].price`; reading `orders[0]` of an empty vector has no defined
value (`none`). -/
def getHighPrice (orders : List OrderBookEntry) : Option ℚ :=
  match orders with
  | [] => none
  | e0 :: _ => some (orders.foldl (fun m e => if m < e.price then e.price else m) e0.price)

/-- Model of `OrderBook::getLowPrice`: linear scan for the minimum price, seeded with
`orders[0].price`; reading `orders[0]` of an empty vector has no defined
value (`none`). -/
def getLowPrice (orders : List OrderBookEntry) : Option ℚ :=
  match orders with
  | [] => none
  | e0 :: _ => some (orders.foldl (fun m e => if e.price < m then e.price else m) e0.price)

/-- Model of `OrderBook::getEarliestTime`: the first stored entry's timestamp. -/
def getEarliestTime (orders : List OrderBookEntry) : Option String :=
  orders.head?.map (fun e => e.timestamp)

/-- Model of `OrderBook::getNextTime`: the first stored entry, in scan order, whose
timestamp exceeds the argument; wraps around to the first entry's timestamp
when no entry is later. -/
def getNextTime (orders : List OrderBookEntry) (timestamp : String) : Option String :=
  match orders.find? (fun e => decide (strLt timestamp e.timestamp)) with
  | some e => some e.timestamp
  | none => orders.head?.map (fun e => e.timestamp)

/-- Postcondition of `std::sort` with comparator `comp`: the result is a
permutation of the input in which no element strictly precedes (by `comp`) an
element placed before it.  `std::sort` guarantees nothing further — in
particular not stability — so sorting is embedded as this relation. -/
def sortSpec (comp : OrderBookEntry → OrderBookEntry → Prop)
    (l l' : List OrderBookEntry) : Prop :=
  l.Perm l' ∧ l'.Pairwise (fun a b => ¬ comp b a)

/-- Model of `OrderBook::insertOrder`: appends the order and re-sorts the whole
collection with `std::sort(compareByTimestamp)`; `book'` ranges over the
allowed results. -/
def insertOrder (book : List OrderBookEntry) (order : OrderBookEntry)
    (book' : List OrderBookEntry) : Prop :=
  sortSpec compareByTimestamp (book ++ [order]) book'

/-- The reachable states of the order book: the seeded constructor state
followed by any sequence of `insertOrder` calls. -/
inductive Reachable : List OrderBookEntry → Prop
  | seed : Reachable seedOrders
  | insert {b : List OrderBookEntry} (o : OrderBookEntry) {b' : List OrderBookEntry} :
      Reachable b → insertOrder b o b' → Reachable b'

-- The matching engine

/-- The sale record built at the top of the matching inner loop: price is the
ask's price, amount is initialised to 0, and the `simuser` tagging of the C++
code is applied (the ask-side check runs second and wins on a self-trade). -/
def mkSale (askPrice : ℚ) (timestamp product : String) (bidUser askUser : String) :
    OrderBookEntry :=
  let s : OrderBookEntry :=
    ⟨askPrice, 0, timestamp, product, .asksale, "dataset"⟩
  let s1 := if bidUser = "simuser" then
    { s with username := "simuser", orderType := .bidsale } else s
  if askUser = "simuser" then
    { s1 with username := "simuser", orderType := .asksale } else s1

/-- The inner loop of `OrderBook::matchAsksToBids` for one ask: `a` is the
ask's current (mutable) amount; returns the produced sales, the ask's final
amount, and the bids list with its in-place amount mutations.  The first two
amount branches `break` (the remaining bids are returned untouched), the
partial-fill branch `continue`s, and an eligible pair matching no branch
falls through to the next bid. -/
def matchBidsLoop (askPrice : ℚ) (askUser timestamp product : String) :
    ℚ → List OrderBookEntry → List OrderBookEntry × ℚ × List OrderBookEntry
  | a, [] => ([], a, [])
  | a, bid :: rest =>
    if askPrice ≤ bid.price then
      let sale := mkSale askPrice timestamp product bid.username askUser
      if bid.amount = a then
        ([{ sale with amount := a }], a, { bid with amount := 0 } :: rest)
      else if a < bid.amount then
        ([{ sale with amount := a }], a, { bid with amount := bid.amount - a } :: rest)
      else if bid.amount < a ∧ 0 < bid.amount then
        let r := matchBidsLoop askPrice askUser timestamp product (a - bid.amount) rest
        ({ sale with amount := bid.amount } :: r.1, r.2.1, { bid with amount := 0 } :: r.2.2)
      else
        let r := matchBidsLoop askPrice askUser timestamp product a rest
        (r.1, r.2.1, bid :: r.2.2)
    else
      let r := matchBidsLoop askPrice askUser timestamp product a rest
      (r.1, r.2.1, bid :: r.2.2)

/-- The outer loop of `OrderBook::matchAsksToBids`: each ask is matched
against the (shared, mutated in place) bids list; returns all sales in
production order together with the final bids list. -/
def matchAsksLoop (timestamp product : String) :
    List OrderBookEntry → List OrderBookEntry → List OrderBookEntry × List OrderBookEntry
  | [], bids => ([], bids)
  | ask :: restAsks, bids =>
    let r := matchBidsLoop ask.price ask.username timestamp product ask.amount bids
    let r2 := matchAsksLoop timestamp product restAsks r.2.2
    (r.1 ++ r2.1, r2.2)

/-- Model of `OrderBook::matchAsksToBids` as a relation between the stored collection
and the allowed sale sequences: the asks and bids for the product/timestamp
are collected with `getOrders`, sorted by `std::sort` (price ascending
resp. descending — any permutation satisfying the sort postcondition), and
run through the matching loops. -/
def matchAsksToBids (orders : List OrderBookEntry) (product timestamp : String)
    (sales : List OrderBookEntry) : Prop :=
  ∃ asks bids,
    sortSpec compareByPriceAsc (getOrders orders .ask product timestamp) asks ∧
    sortSpec compareByPriceDesc (getOrders orders .bid product timestamp) bids ∧
    sales = (matchAsksLoop timestamp product asks bids).1

-- Wallet operation sequences

/-- One wallet operation: deposit (`insertCurrency`), withdraw
(`removeCurrency`) or settle (`processSale`). -/
inductive WalletOp where
  | deposit (typ : String) (amount : ℚ)
  | withdraw (typ : String) (amount : ℚ)
  | settle (sale : OrderBookEntry)

/-- Applying one wallet operation.  A rejected deposit (negative amount, which
throws in the C++) and an undefined settlement leave the wallet unchanged; a
failed withdrawal returns the unchanged wallet by construction. -/
def applyOp (w : Wallet) : WalletOp → Wallet
  | .deposit typ amount => (insertCurrency w typ amount).getD w
  | .withdraw typ amount => (removeCurrency w typ amount).2
  | .settle sale => (processSale w sale).getD w

/-- All balances stored in the wallet are non-negative. -/
def NonNeg (w : Wallet) : Prop := ∀ p ∈ w, 0 ≤ p.2

instance (w : Wallet) : Decidable (NonNeg w) := by unfold NonNeg; infer_instance

/-- The settlement precondition (spec §4.2/§7: settlement assumes the trade
was validated): the trade's amount and price are non-negative and the debited
currency's balance covers the debit.  Trades whose product does not split
into two tokens have no defined settlement and leave the wallet unchanged, so
no condition is needed for them. -/
def Covered (w : Wallet) (sale : OrderBookEntry) : Prop :=
  match tokenise sale.product '/' with
  | base :: quote :: _ =>
      0 ≤ sale.amount ∧ 0 ≤ sale.price ∧
      (sale.orderType = .asksale → sale.amount ≤ bal w base) ∧
      (sale.orderType = .bidsale → sale.amount * sale.price ≤ bal w quote)
  | _ => True

/-- One step of a wallet history in which every settlement respects its
precondition (deposits and withdrawals are unrestricted: the wallet itself
validates them). -/
inductive SafeStep : Wallet → Wallet → Prop
  | dep (w : Wallet) (typ : String) (amount : ℚ) :
      SafeStep w (applyOp w (.deposit typ amount))
  | wd (w : Wallet) (typ : String) (amount : ℚ) :
      SafeStep w (applyOp w (.withdraw typ amount))
  | settle (w : Wallet) (sale : OrderBookEntry) (h : Covered w sale) :
      SafeStep w (applyOp w (.settle sale))

/-- Concrete sale used to refute the unrestricted form of claim C1. -/
def c1Sale : OrderBookEntry := ⟨1, 1, "t", "ETH/USDT", .asksale, "simuser"⟩

/-- Bid with amount 0 used to refute the no-trade clause of claim C2. -/
def c2Bid : OrderBookEntry := ⟨100, 0, "t", "P", .bid, "dataset"⟩

/-- Concrete ask used in the claim C3 witness. -/
def c3Ask : OrderBookEntry := ⟨5, 2, "t", "ETH/USDT", .ask, "dataset"⟩

/-- Concrete bid used in the claim C3 witness. -/
def c3Bid : OrderBookEntry := ⟨6, 2, "t", "ETH/USDT", .bid, "dataset"⟩

/-- Stored ask with amount 0 used in claim C10. -/
def c10Ask : OrderBookEntry := ⟨100, 0, "t", "BTC/USDT", .ask, "dataset"⟩

/-- Stored bid with positive amount used in claim C10. -/
def c10Bid : OrderBookEntry := ⟨100, 1, "t", "BTC/USDT", .bid, "dataset"⟩

/-- The sum of the amounts of a list of entries. -/
def amountSum (l : List OrderBookEntry) : ℚ := (l.map (fun e => e.amount)).sum

/-- Bid matching the counterexample ask of claim C4 exactly. -/
def c4Bid : OrderBookEntry := ⟨7, 5, "t", "P", .bid, "dataset"⟩

/-- Ask used in the claim C4 witness. -/
def c4WAsk : OrderBookEntry := ⟨3, 2, "t", "P", .ask, "dataset"⟩

/-- Bid used in the claim C4 witness. -/
def c4WBid : OrderBookEntry := ⟨4, 1, "t", "P", .bid, "dataset"⟩

/-- The collection is sorted (non-strictly) by timestamp: the postcondition
of `std::sort(compareByTimestamp)`. -/
def sortedByTs (l : List OrderBookEntry) : Prop :=
  l.Pairwise (fun a b => ¬ compareByTimestamp b a)

/-- First entry of the claim C7 counterexample (timestamp `"t"`, owner
`"u1"`). -/
def c7E1 : OrderBookEntry := ⟨1, 1, "t", "P", .bid, "u1"⟩

/-- Second entry of the claim C7 counterexample (same timestamp `"t"`, owner
`"u2"`). -/
def c7E2 : OrderBookEntry := ⟨2, 2, "t", "P", .bid, "u2"⟩

/-- First entry of the claim C7 witness (timestamp `"a"`). -/
def c7W1 : OrderBookEntry := ⟨1, 1, "a", "P", .bid, "dataset"⟩

/-- Second entry of the claim C7 witness (timestamp `"b"`). -/
def c7W2 : OrderBookEntry := ⟨2, 2, "b", "P", .ask, "simuser"⟩

theorem strLe_iff_not_strLt {a b : String} : strLe a b ↔ ¬ strLt b a := by
  simp [strLe, strLt]

theorem charListLt_irrefl : ∀ l : List Char, charListLt l l = false := by
  intro l
  induction l with
  | nil => rfl
  | cons x xs ih => simp [charListLt, ih]

theorem charListLt_not_lt_trans :
    ∀ a b c : List Char, charListLt b a = false → charListLt c b = false →
      charListLt c a = false := by
  intro a
  induction a with
  | nil =>
    intro b c _ _
    cases c with
    | nil => rfl
    | cons z zs => rfl
  | cons x xs ih =>
    intro b c h1 h2
    cases c with
    | nil =>
      cases b with
      | nil => exact absurd h1 (by simp [charListLt])
      | cons y ys => exact absurd h2 (by simp [charListLt])
    | cons z zs =>
      cases b with
      | nil => exact absurd h1 (by simp [charListLt])
      | cons y ys =>
        simp only [charListLt] at h1 h2 ⊢
        have hyx : ¬ y < x := fun hlt => by simp [if_pos hlt] at h1
        have hzy : ¬ z < y := fun hlt => by simp [if_pos hlt] at h2
        have hxz : x ≤ z := le_trans (le_of_not_lt hyx) (le_of_not_lt hzy)
        rw [if_neg (not_lt.mpr hxz)]
        by_cases hxz2 : x < z
        · rw [if_pos hxz2]
        · rw [if_neg hxz2]
          have hzx : z ≤ x := le_of_not_lt hxz2
          have h1' : charListLt ys xs = false := by
            by_cases hxy : x < y
            · exact absurd (lt_of_lt_of_le hxy (le_trans (le_of_not_lt hzy) hzx))
                (lt_irrefl x)
            · rw [if_neg hyx, if_neg hxy] at h1; exact h1
          have h2' : charListLt zs ys = false := by
            by_cases hyz : y < z
            · exact absurd (lt_of_le_of_lt (le_trans hzx (le_of_not_lt hyx)) hyz)
                (lt_irrefl z)
            · rw [if_neg hzy, if_neg hyz] at h2; exact h2
          exact ih ys zs h1' h2'

theorem strLe_refl (a : String) : strLe a a := charListLt_irrefl a.data

theorem strLe_trans {a b c : String} (h1 : strLe a b) (h2 : strLe b c) :
    strLe a c :=
  charListLt_not_lt_trans a.data b.data c.data h1 h2

theorem charListLt_false_total :
    ∀ a b : List Char, charListLt a b = false ∨ charListLt b a = false := by
  intro a
  induction a with
  | nil =>
    intro b
    cases b with
    | nil => exact Or.inl rfl
    | cons y ys => exact Or.inr rfl
  | cons x xs ih =>
    intro b
    cases b with
    | nil => exact Or.inl rfl
    | cons y ys =>
      simp only [charListLt]
      rcases lt_trichotomy x y with h | h | h
      · refine Or.inr ?_
        rw [if_neg (asymm h), if_pos h]
      · subst h
        simp only [lt_irrefl, if_false, if_neg]
        exact ih ys
      · refine Or.inl ?_
        rw [if_neg (asymm h), if_pos h]

theorem strLe_total (a b : String) : strLe a b ∨ strLe b a :=
  (charListLt_false_total b.data a.data).imp (fun h => h) (fun h => h)

-- Wallet lemmas

theorem balLookup_setBal (w : Wallet) (typ typ' : String) (v : ℚ) :
    balLookup (setBal w typ v) typ' = if typ' = typ then some v else balLookup w typ' := by
  induction w with
  | nil =>
    by_cases h : typ' = typ
    · simp [setBal, balLookup, h]
    · simp [setBal, balLookup, h, Ne.symm h]
  | cons p rest ih =>
    by_cases hp : p.1 = typ
    · rw [show setBal (p :: rest) typ v = (typ, v) :: rest from by simp [setBal, hp]]
      by_cases h : typ' = typ
      · simp [balLookup, h]
      · have h1 : (typ == typ') = false := beq_eq_false_iff_ne.mpr (Ne.symm h)
        have h2 : (p.1 == typ') = false := by rw [hp]; exact h1
        simp [balLookup, List.find?, h1, h2, h]
    · rw [show setBal (p :: rest) typ v = p :: setBal rest typ v from by simp [setBal, hp]]
      by_cases hq : p.1 = typ'
      · have hne : ¬ typ' = typ := fun hc => hp (hq.trans hc)
        simp [balLookup, List.find?, hq, hne]
      · have h2 : (p.1 == typ') = false := by simp [hq]
        simp only [balLookup, List.find?, h2]
        exact ih

theorem bal_setBal (w : Wallet) (typ typ' : String) (v : ℚ) :
    bal (setBal w typ v) typ' = if typ' = typ then v else bal w typ' := by
  unfold bal
  rw [balLookup_setBal]
  by_cases h : typ' = typ <;> simp [h]

theorem nonNeg_setBal {w : Wallet} {v : ℚ} (typ : String)
    (hw : NonNeg w) (hv : 0 ≤ v) : NonNeg (setBal w typ v) := by
  induction w with
  | nil => intro p hp; simp [setBal] at hp; simp [hp, hv]
  | cons q rest ih =>
    intro p hp
    simp only [setBal] at hp
    by_cases hq : q.1 = typ
    · rw [if_pos hq] at hp
      rcases List.mem_cons.mp hp with h | h
      · simp [h, hv]
      · exact hw p (List.mem_cons_of_mem q h)
    · rw [if_neg hq] at hp
      rcases List.mem_cons.mp hp with h | h
      · exact hw p (h ▸ List.mem_cons_self q rest)
      · exact ih (fun r hr => hw r (List.mem_cons_of_mem q hr)) p h

theorem nonNeg_bal {w : Wallet} (hw : NonNeg w) (typ : String) : 0 ≤ bal w typ := by
  unfold bal balLookup
  cases hfind : w.find? (fun p => p.1 == typ) with
  | none => simp
  | some p => simpa using hw p (List.mem_of_find?_eq_some hfind)

theorem nonNeg_insertCurrency {w w' : Wallet} {typ : String} {amount : ℚ}
    (hw : NonNeg w) (h : insertCurrency w typ amount = some w') : NonNeg w' := by
  unfold insertCurrency at h
  split_ifs at h with hneg
  have hw' : w' = setBal w typ ((balLookup w typ).getD 0 + amount) :=
    (Option.some.inj h).symm
  rw [hw']
  exact nonNeg_setBal typ hw (add_nonneg (nonNeg_bal hw typ) (le_of_not_lt hneg))

theorem nonNeg_removeCurrency {w : Wallet} {typ : String} {amount : ℚ}
    (hw : NonNeg w) : NonNeg (removeCurrency w typ amount).2 := by
  unfold removeCurrency
  split_ifs with h1 h2 h3
  · exact hw
  · exact hw
  · refine nonNeg_setBal typ hw ?_
    unfold containsCurrency at h3
    cases hfind : balLookup w typ with
    | none => rw [hfind] at h3; simp at h3
    | some b =>
      rw [hfind] at h3
      simp only [decide_eq_true_eq] at h3
      have : bal w typ = b := by simp [bal, hfind]
      rw [this]
      linarith
  · exact hw

theorem nonNeg_processSale {w w' : Wallet} {sale : OrderBookEntry}
    (hw : NonNeg w) (hcov : Covered w sale) (h : processSale w sale = some w') :
    NonNeg w' := by
  unfold processSale at h
  unfold Covered at hcov
  cases htype : sale.orderType with
  | asksale =>
    rw [htype] at h
    cases htok : tokenise sale.product '/' with
    | nil => rw [htok] at h; cases h
    | cons base rest =>
      cases rest with
      | nil => rw [htok] at h; cases h
      | cons quote rest' =>
        rw [htok] at h hcov
        obtain ⟨ham, hpr, hbase, _⟩ := hcov
        cases h
        have h1 : NonNeg (setBal w base (bal w base - sale.amount)) :=
          nonNeg_setBal base hw (by linarith [hbase htype])
        exact nonNeg_setBal quote h1
          (add_nonneg (nonNeg_bal h1 quote) (mul_nonneg ham hpr))
  | bidsale =>
    rw [htype] at h
    cases htok : tokenise sale.product '/' with
    | nil => rw [htok] at h; cases h
    | cons base rest =>
      cases rest with
      | nil => rw [htok] at h; cases h
      | cons quote rest' =>
        rw [htok] at h hcov
        obtain ⟨ham, hpr, _, hquote⟩ := hcov
        cases h
        have h1 : NonNeg (setBal w base (bal w base + sale.amount)) :=
          nonNeg_setBal base hw (add_nonneg (nonNeg_bal hw base) ham)
        refine nonNeg_setBal quote h1 ?_
        have hbq : bal w quote ≤ bal (setBal w base (bal w base + sale.amount)) quote := by
          rw [bal_setBal]
          by_cases hq : quote = base
          · rw [if_pos hq, hq]; linarith [nonNeg_bal hw base]
          · rw [if_neg hq]
        linarith [hquote htype]
  | bid => rw [htype] at h; cases h; exact hw
  | ask => rw [htype] at h; cases h; exact hw
  | unknown => rw [htype] at h; cases h; exact hw

theorem safeStep_nonNeg {w w' : Wallet} (hw : NonNeg w) (h : SafeStep w w') :
    NonNeg w' := by
  cases h with
  | dep typ amount =>
    unfold applyOp
    cases hins : insertCurrency w typ amount with
    | none => simpa [hins] using hw
    | some w2 => simpa [hins] using nonNeg_insertCurrency hw hins
  | wd typ amount => exact nonNeg_removeCurrency hw
  | settle sale hcov =>
    unfold applyOp
    cases hps : processSale w sale with
    | none => simpa [hps] using hw
    | some w2 => simpa [hps] using nonNeg_processSale hw hcov hps

-- Claim C1

/-- Claim C1 (amended).  For every sequence of deposit (`insertCurrency`),
withdraw (`removeCurrency`) and precondition-respecting settle
(`processSale`) operations starting from an empty or validly seeded wallet,
every balance stays non-negative; a negative deposit amount is rejected (the
C++ throws before mutating), and a withdrawal the balance does not cover —
in particular any over-balance withdrawal — returns `false` without
mutation.  The amendment restricts the settle steps to trades satisfying the
settlement precondition (`Covered`): `processSale` performs no funds check of
its own and an unchecked settlement can drive a balance negative (see the
counterexample). -/
theorem claim_C1 :
    (∀ w w', NonNeg w → Relation.ReflTransGen SafeStep w w' → NonNeg w') ∧
    (∀ (w : Wallet) (typ : String) (a : ℚ), a < 0 → insertCurrency w typ a = none) ∧
    (∀ (w : Wallet) (typ : String) (a : ℚ), a < 0 → removeCurrency w typ a = (false, w)) ∧
    (∀ (w : Wallet) (typ : String) (a : ℚ), containsCurrency w typ a = false →
      removeCurrency w typ a = (false, w)) := by
  refine ⟨?_, ?_, ?_, ?_⟩
  · intro w w' hw hreach
    induction hreach with
    | refl => exact hw
    | tail _ hstep ih => exact safeStep_nonNeg ih hstep
  · intro w typ a ha
    simp [insertCurrency, ha]
  · intro w typ a ha
    simp [removeCurrency, ha]
  · intro w typ a ha
    unfold removeCurrency
    split_ifs with h1 h2 h3
    · rfl
    · rfl
    · rw [ha] at h3; cases h3
    · rfl

/-- Claim C1, counterexample to the claim as stated: settling an `asksale`
trade over `ETH/USDT` against the empty wallet (a sequence of one
`processSale` operation) leaves the ETH balance at `-1 < 0` — `processSale`
checks nothing and `std::map::operator[]` creates the debited entry at 0. -/
theorem claim_C1_counterexample :
    applyOp [] (.settle c1Sale) = [("ETH", -1), ("USDT", 1)] ∧
    ¬ NonNeg (applyOp [] (.settle c1Sale)) := by
  have htok : tokenise "ETH/USDT" '/' = ["ETH", "USDT"] := by decide
  have hne : ¬ ("ETH" : String) = "USDT" := by decide
  have hne2 : ¬ ("USDT" : String) = "ETH" := by decide
  have hps : applyOp [] (.settle c1Sale) = [("ETH", -1), ("USDT", 1)] := by
    simp only [applyOp, processSale, c1Sale, htok]
    norm_num [setBal, bal, balLookup, hne, hne2]
  refine ⟨hps, ?_⟩
  rw [hps]
  intro hnn
  have := hnn ("ETH", -1) (by simp)
  norm_num at this

/-- Witness for claim C1: a concrete two-step history (deposit 10 BTC, then
withdraw 4 BTC) from the empty wallet, with all hypotheses discharged. -/
theorem claim_C1_witness :
    NonNeg (applyOp (applyOp [] (.deposit "BTC" 10)) (.withdraw "BTC" 4)) :=
  claim_C1.1 [] _ (by decide)
    (Relation.ReflTransGen.tail
      (Relation.ReflTransGen.single (SafeStep.dep [] "BTC" 10))
      (SafeStep.wd (applyOp [] (.deposit "BTC" 10)) "BTC" 4))

-- Claim C9

/-- Claim C9 (confirmed).  `canFulfillOrder` and `processSale` split the
product string on `'/'` and index into the token vector without checking its
length: whenever the split yields at least two tokens both are total (return
a defined value for every side), while for a separator-free product such as
`"BTCUSDT"` the bid-side / settlement access to token index 1, and for an
empty product the index-0 access, have no defined value (modelled as
`none`). -/
theorem claim_C9 :
    (∀ (w : Wallet) (o : OrderBookEntry), 2 ≤ (tokenise o.product '/').length →
      (canFulfillOrder w o).isSome) ∧
    (∀ (w : Wallet) (s : OrderBookEntry), 2 ≤ (tokenise s.product '/').length →
      (processSale w s).isSome) ∧
    tokenise "BTCUSDT" '/' = ["BTCUSDT"] ∧
    canFulfillOrder [] ⟨1, 1, "t", "BTCUSDT", .bid, "simuser"⟩ = none ∧
    processSale [] ⟨1, 1, "t", "BTCUSDT", .asksale, "simuser"⟩ = none ∧
    tokenise "" '/' = [] ∧
    canFulfillOrder [] ⟨1, 1, "t", "", .ask, "simuser"⟩ = none ∧
    processSale [] ⟨1, 1, "t", "", .bidsale, "simuser"⟩ = none := by
  refine ⟨?_, ?_, by decide, by decide, by decide, by decide, by decide, by decide⟩
  · intro w o hlen
    unfold canFulfillOrder
    cases htok : tokenise o.product '/' with
    | nil => rw [htok] at hlen; simp at hlen
    | cons base rest =>
      cases rest with
      | nil => rw [htok] at hlen; simp at hlen
      | cons quote rest' =>
        cases o.orderType <;> simp [htok]
  · intro w s hlen
    unfold processSale
    cases htok : tokenise s.product '/' with
    | nil => rw [htok] at hlen; simp at hlen
    | cons base rest =>
      cases rest with
      | nil => rw [htok] at hlen; simp at hlen
      | cons quote rest' =>
        cases s.orderType <;> simp [htok]

/-- Witness for claim C9: the totality clauses applied to a concrete bid and
a concrete trade over the well-formed product `"ETH/USDT"`. -/
theorem claim_C9_witness :
    (canFulfillOrder [] ⟨1, 1, "t", "ETH/USDT", .bid, "simuser"⟩).isSome ∧
    (processSale [] ⟨1, 1, "t", "ETH/USDT", .asksale, "simuser"⟩).isSome :=
  ⟨claim_C9.1 [] ⟨1, 1, "t", "ETH/USDT", .bid, "simuser"⟩ (by decide),
   claim_C9.2.1 [] ⟨1, 1, "t", "ETH/USDT", .asksale, "simuser"⟩ (by decide)⟩

-- Claim C6: high/low price

theorem foldSel_mem (f : ℚ → ℚ → ℚ) (hf : ∀ m p, f m p = m ∨ f m p = p) :
    ∀ (l : List OrderBookEntry) (m : ℚ),
      l.foldl (fun m e => f m e.price) m = m ∨
        ∃ e ∈ l, l.foldl (fun m e => f m e.price) m = e.price := by
  intro l
  induction l with
  | nil => intro m; exact Or.inl rfl
  | cons x xs ih =>
    intro m
    simp only [List.foldl_cons]
    rcases ih (f m x.price) with h | ⟨e, he, hfe⟩
    · rcases hf m x.price with h2 | h2
      · exact Or.inl (h.trans h2)
      · exact Or.inr ⟨x, List.mem_cons_self x xs, h.trans h2⟩
    · exact Or.inr ⟨e, List.mem_cons_of_mem x he, hfe⟩

theorem foldMax_init_le (l : List OrderBookEntry) :
    ∀ m : ℚ, m ≤ l.foldl (fun m e => if m < e.price then e.price else m) m := by
  induction l with
  | nil => intro m; exact le_refl m
  | cons x xs ih =>
    intro m
    simp only [List.foldl_cons]
    refine le_trans ?_ (ih _)
    by_cases h : m < x.price
    · rw [if_pos h]; exact le_of_lt h
    · rw [if_neg h]

theorem foldMax_mem_le (l : List OrderBookEntry) :
    ∀ (m : ℚ) (e : OrderBookEntry), e ∈ l →
      e.price ≤ l.foldl (fun m e => if m < e.price then e.price else m) m := by
  induction l with
  | nil => intro m e he; exact absurd he (List.not_mem_nil e)
  | cons x xs ih =>
    intro m e he
    simp only [List.foldl_cons]
    rcases List.mem_cons.mp he with h | h
    · subst h
      refine le_trans ?_ (foldMax_init_le xs _)
      by_cases hcmp : m < e.price
      · rw [if_pos hcmp]
      · rw [if_neg hcmp]; exact le_of_not_lt hcmp
    · exact ih _ e h

theorem foldMin_le_init (l : List OrderBookEntry) :
    ∀ m : ℚ, l.foldl (fun m e => if e.price < m then e.price else m) m ≤ m := by
  induction l with
  | nil => intro m; exact le_refl m
  | cons x xs ih =>
    intro m
    simp only [List.foldl_cons]
    refine le_trans (ih _) ?_
    by_cases h : x.price < m
    · rw [if_pos h]; exact le_of_lt h
    · rw [if_neg h]

theorem foldMin_le_mem (l : List OrderBookEntry) :
    ∀ (m : ℚ) (e : OrderBookEntry), e ∈ l →
      l.foldl (fun m e => if e.price < m then e.price else m) m ≤ e.price := by
  induction l with
  | nil => intro m e he; exact absurd he (List.not_mem_nil e)
  | cons x xs ih =>
    intro m e he
    simp only [List.foldl_cons]
    rcases List.mem_cons.mp he with h | h
    · subst h
      refine le_trans (foldMin_le_init xs _) ?_
      by_cases hcmp : e.price < m
      · rw [if_pos hcmp]
      · rw [if_neg hcmp]; exact le_of_not_lt hcmp
    · exact ih _ e h

/-- Claim C6 (confirmed).  `getHighPrice` and `getLowPrice` read `orders[0]`
unconditionally, so on an empty entry sequence they have no defined result —
a precondition violation surfacing at the access itself (modelled as `none`),
never a sentinel value such as 0; on a non-empty sequence they return the
maximum (respectively minimum) price among the entries. -/
theorem claim_C6 :
    getHighPrice [] = none ∧ getLowPrice [] = none ∧
    (∀ orders : List OrderBookEntry, orders ≠ [] →
      ∃ m, getHighPrice orders = some m ∧ (∀ e ∈ orders, e.price ≤ m) ∧
        ∃ e ∈ orders, e.price = m) ∧
    (∀ orders : List OrderBookEntry, orders ≠ [] →
      ∃ m, getLowPrice orders = some m ∧ (∀ e ∈ orders, m ≤ e.price) ∧
        ∃ e ∈ orders, e.price = m) := by
  refine ⟨rfl, rfl, ?_, ?_⟩
  · intro orders hne
    cases orders with
    | nil => exact absurd rfl hne
    | cons e0 rest =>
      refine ⟨_, rfl, ?_, ?_⟩
      · intro e he
        exact foldMax_mem_le (e0 :: rest) e0.price e he
      · rcases foldSel_mem (fun m p => if m < p then p else m)
          (fun m p => by by_cases h : m < p <;> simp [h]) (e0 :: rest) e0.price with
          h | ⟨e, he, hfe⟩
        · exact ⟨e0, List.mem_cons_self e0 rest, h.symm⟩
        · exact ⟨e, he, hfe.symm⟩
  · intro orders hne
    cases orders with
    | nil => exact absurd rfl hne
    | cons e0 rest =>
      refine ⟨_, rfl, ?_, ?_⟩
      · intro e he
        exact foldMin_le_mem (e0 :: rest) e0.price e he
      · rcases foldSel_mem (fun m p => if p < m then p else m)
          (fun m p => by by_cases h : p < m <;> simp [h]) (e0 :: rest) e0.price with
          h | ⟨e, he, hfe⟩
        · exact ⟨e0, List.mem_cons_self e0 rest, h.symm⟩
        · exact ⟨e, he, hfe.symm⟩

/-- Witness for claim C6: the max/min clauses applied to a concrete two-entry
list. -/
theorem claim_C6_witness :
    (∃ m, getHighPrice [⟨3, 1, "t", "P", .ask, "dataset"⟩,
        ⟨7, 1, "t", "P", .ask, "dataset"⟩] = some m ∧
      (∀ e ∈ [(⟨3, 1, "t", "P", .ask, "dataset"⟩ : OrderBookEntry),
        ⟨7, 1, "t", "P", .ask, "dataset"⟩], e.price ≤ m) ∧
      ∃ e ∈ [(⟨3, 1, "t", "P", .ask, "dataset"⟩ : OrderBookEntry),
        ⟨7, 1, "t", "P", .ask, "dataset"⟩], e.price = m) ∧
    (∃ m, getLowPrice [⟨3, 1, "t", "P", .ask, "dataset"⟩,
        ⟨7, 1, "t", "P", .ask, "dataset"⟩] = some m ∧
      (∀ e ∈ [(⟨3, 1, "t", "P", .ask, "dataset"⟩ : OrderBookEntry),
        ⟨7, 1, "t", "P", .ask, "dataset"⟩], m ≤ e.price) ∧
      ∃ e ∈ [(⟨3, 1, "t", "P", .ask, "dataset"⟩ : OrderBookEntry),
        ⟨7, 1, "t", "P", .ask, "dataset"⟩], e.price = m) :=
  ⟨claim_C6.2.2.1 _ (by simp), claim_C6.2.2.2 _ (by simp)⟩

-- Claim C2: the per-pair matching branches

/-- Claim C2 (amended).  In a single match call, for the first bid scanned
against the current ask (ask amount `a`) with `bid.price >= ask.price`:
equal amounts produce a trade of `a`, zero the bid and stop scanning bids
for this ask; `bid.amount > a` produces a trade of `a`, reduces the bid by
`a` and stops scanning; `0 < bid.amount < a` produces a trade of
`bid.amount`, reduces the ask by `bid.amount`, zeroes the bid and continues
scanning the remaining bids; and a bid with amount 0 produces no trade and
is skipped — the amendment adds the proviso `0 < a` to this last clause,
because against an ask whose remaining amount is also 0 the equal-amounts
branch fires and does emit a (zero-amount) trade (see the
counterexample). -/
theorem claim_C2 (askPrice a : ℚ) (askUser timestamp product : String)
    (bid : OrderBookEntry) (rest : List OrderBookEntry)
    (helig : askPrice ≤ bid.price) :
    (bid.amount = a →
      matchBidsLoop askPrice askUser timestamp product a (bid :: rest) =
        ([{ mkSale askPrice timestamp product bid.username askUser with amount := a }],
          a, { bid with amount := 0 } :: rest)) ∧
    (a < bid.amount →
      matchBidsLoop askPrice askUser timestamp product a (bid :: rest) =
        ([{ mkSale askPrice timestamp product bid.username askUser with amount := a }],
          a, { bid with amount := bid.amount - a } :: rest)) ∧
    (bid.amount < a → 0 < bid.amount →
      matchBidsLoop askPrice askUser timestamp product a (bid :: rest) =
        ({ mkSale askPrice timestamp product bid.username askUser with amount := bid.amount } ::
            (matchBidsLoop askPrice askUser timestamp product (a - bid.amount) rest).1,
          (matchBidsLoop askPrice askUser timestamp product (a - bid.amount) rest).2.1,
          { bid with amount := 0 } ::
            (matchBidsLoop askPrice askUser timestamp product (a - bid.amount) rest).2.2)) ∧
    (bid.amount = 0 → 0 < a →
      matchBidsLoop askPrice askUser timestamp product a (bid :: rest) =
        ((matchBidsLoop askPrice askUser timestamp product a rest).1,
          (matchBidsLoop askPrice askUser timestamp product a rest).2.1,
          bid :: (matchBidsLoop askPrice askUser timestamp product a rest).2.2)) := by
  refine ⟨?_, ?_, ?_, ?_⟩
  · intro h
    simp [matchBidsLoop, helig, h]
  · intro h
    have h1 : ¬ bid.amount = a := ne_of_gt h
    have h2 : ¬ bid.amount < a := not_lt.mpr (le_of_lt h)
    simp [matchBidsLoop, helig, h, h1, h2]
  · intro h hpos
    have h1 : ¬ bid.amount = a := ne_of_lt h
    have h2 : ¬ a < bid.amount := not_lt.mpr (le_of_lt h)
    simp [matchBidsLoop, helig, h, hpos, h1, h2]
  · intro h ha
    have h1 : ¬ bid.amount = a := by rw [h]; exact ne_of_lt ha
    have h2 : ¬ a < bid.amount := by rw [h]; exact not_lt.mpr (le_of_lt ha)
    have h3 : ¬ (bid.amount < a ∧ 0 < bid.amount) := by
      rw [h]; exact fun hc => lt_irrefl 0 hc.2
    simp [matchBidsLoop, helig, h1, h2, h3]

/-- Claim C2, counterexample to the claim as stated: a bid with amount 0 and
eligible price, scanned against an ask whose remaining amount is also 0,
falls into the equal-amounts branch and DOES produce a (zero-amount) trade,
contradicting the clause that a bid with amount 0 produces no trade. -/
theorem claim_C2_counterexample :
    c2Bid.amount = 0 ∧ (100 : ℚ) ≤ c2Bid.price ∧
    (matchBidsLoop 100 "dataset" "t" "P" 0 [c2Bid]).1 =
      [{ mkSale 100 "t" "P" "dataset" "dataset" with amount := 0 }] ∧
    (matchBidsLoop 100 "dataset" "t" "P" 0 [c2Bid]).1 ≠ [] := by
  refine ⟨rfl, le_refl _, ?_, ?_⟩ <;> decide

/-- Witness for claim C2: the full-fill branch applied to a concrete
eligible pair (ask amount 2, bid amount 3 at equal prices 10). -/
theorem claim_C2_witness :
    matchBidsLoop 10 "dataset" "t" "P" 2 [⟨10, 3, "t", "P", .bid, "dataset"⟩] =
      ([{ mkSale 10 "t" "P" "dataset" "dataset" with amount := 2 }], 2,
        [{ (⟨10, 3, "t", "P", .bid, "dataset"⟩ : OrderBookEntry) with amount := 3 - 2 }]) :=
  (claim_C2 10 2 "dataset" "t" "P" ⟨10, 3, "t", "P", .bid, "dataset"⟩ []
    (by norm_num)).2.1 (by norm_num)

-- Claim C3: trade price is the ask's price

theorem mkSale_price (p : ℚ) (ts prod bu au : String) :
    (mkSale p ts prod bu au).price = p := by
  simp only [mkSale]
  split_ifs <;> rfl

theorem matchBidsLoop_price (askPrice : ℚ) (askUser ts prod : String) :
    ∀ (bids : List OrderBookEntry) (a : ℚ),
      ∀ s ∈ (matchBidsLoop askPrice askUser ts prod a bids).1, s.price = askPrice := by
  intro bids
  induction bids with
  | nil => intro a s hs; simp [matchBidsLoop] at hs
  | cons bid rest ih =>
    intro a s hs
    by_cases h0 : askPrice ≤ bid.price
    · by_cases h1 : bid.amount = a
      · simp only [matchBidsLoop, if_pos h0, if_pos h1, List.mem_singleton] at hs
        rw [hs]
        exact mkSale_price askPrice ts prod bid.username askUser
      · by_cases h2 : a < bid.amount
        · simp only [matchBidsLoop, if_pos h0, if_neg h1, if_pos h2,
            List.mem_singleton] at hs
          rw [hs]
          exact mkSale_price askPrice ts prod bid.username askUser
        · by_cases h3 : bid.amount < a ∧ 0 < bid.amount
          · simp only [matchBidsLoop, if_pos h0, if_neg h1, if_neg h2, if_pos h3,
              List.mem_cons] at hs
            rcases hs with hs | hs
            · rw [hs]
              exact mkSale_price askPrice ts prod bid.username askUser
            · exact ih _ s hs
          · simp only [matchBidsLoop, if_pos h0, if_neg h1, if_neg h2, if_neg h3] at hs
            exact ih _ s hs
    · simp only [matchBidsLoop, if_neg h0] at hs
      exact ih _ s hs

theorem matchAsksLoop_price (ts prod : String) :
    ∀ (asks bids : List OrderBookEntry),
      ∀ s ∈ (matchAsksLoop ts prod asks bids).1, ∃ ask ∈ asks, s.price = ask.price := by
  intro asks
  induction asks with
  | nil => intro bids s hs; simp [matchAsksLoop] at hs
  | cons ask restAsks ih =>
    intro bids s hs
    simp only [matchAsksLoop, List.mem_append] at hs
    rcases hs with h | h
    · exact ⟨ask, List.mem_cons_self ask restAsks,
        matchBidsLoop_price ask.price ask.username ts prod bids ask.amount s h⟩
    · obtain ⟨a2, ha2, hp⟩ := ih _ s h
      exact ⟨a2, List.mem_cons_of_mem ask ha2, hp⟩

/-- Claim C3 (confirmed).  Every trade produced by the matching inner loop
carries the price of the ask it was produced for (the comparison
`bid.price >= ask.price` only gates eligibility; the bid's price never enters
the trade), and consequently every trade in any allowed result of
`matchAsksToBids` has the price of one of the asks retrieved for the
product/timestamp. -/
theorem claim_C3 :
    (∀ (askPrice a : ℚ) (askUser timestamp product : String)
      (bids : List OrderBookEntry),
      ∀ s ∈ (matchBidsLoop askPrice askUser timestamp product a bids).1,
        s.price = askPrice) ∧
    (∀ (orders : List OrderBookEntry) (product timestamp : String)
      (sales : List OrderBookEntry),
      matchAsksToBids orders product timestamp sales →
      ∀ s ∈ sales, ∃ ask ∈ getOrders orders .ask product timestamp,
        s.price = ask.price) := by
  constructor
  · intro p a u ts prod bids
    exact matchBidsLoop_price p u ts prod bids a
  · rintro orders prod ts sales ⟨asks, bids, ⟨hperm, _⟩, _, hsales⟩ s hs
    rw [hsales] at hs
    obtain ⟨ask, hmem, hp⟩ := matchAsksLoop_price ts prod asks bids s hs
    exact ⟨ask, hperm.mem_iff.mpr hmem, hp⟩

/-- Witness for claim C3: a concrete match call (one ask at 5, one bid at 6,
equal amounts) whose single trade carries the ask's price. -/
theorem claim_C3_witness :
    ∃ ask ∈ getOrders [c3Ask, c3Bid] .ask "ETH/USDT" "t",
      ({ mkSale 5 "t" "ETH/USDT" "dataset" "dataset" with amount := 2 } :
        OrderBookEntry).price = ask.price := by
  have hga : getOrders [c3Ask, c3Bid] .ask "ETH/USDT" "t" = [c3Ask] := by decide
  have hgb : getOrders [c3Ask, c3Bid] .bid "ETH/USDT" "t" = [c3Bid] := by decide
  have hsales : [({ mkSale 5 "t" "ETH/USDT" "dataset" "dataset" with amount := 2 } :
      OrderBookEntry)] = (matchAsksLoop "t" "ETH/USDT" [c3Ask] [c3Bid]).1 := by decide
  exact claim_C3.2 [c3Ask, c3Bid] "ETH/USDT" "t" _
    ⟨[c3Ask], [c3Bid],
      ⟨by rw [hga], by simp⟩, ⟨by rw [hgb], by simp⟩, hsales⟩
    _ (List.mem_singleton.mpr rfl)

-- Claim C10: zero-amount trades

/-- Claim C10 (confirmed).  `matchAsksToBids` can return a trade with amount
0: with a stored ask of amount 0 and an eligible bid of amount 1 at the same
price, the `bid.amount > ask.amount` branch emits a trade of amount 0 while
the bid's amount is reduced by 0 (i.e. left unchanged) — zero-amount resting
orders are not excluded from pairing. -/
theorem claim_C10 :
    matchAsksToBids [c10Ask, c10Bid] "BTC/USDT" "t"
      [{ mkSale 100 "t" "BTC/USDT" "dataset" "dataset" with amount := 0 }] ∧
    ({ mkSale 100 "t" "BTC/USDT" "dataset" "dataset" with amount := 0 } :
      OrderBookEntry).amount = 0 ∧
    (matchAsksLoop "t" "BTC/USDT" [c10Ask] [c10Bid]).2 = [c10Bid] := by
  have hga : getOrders [c10Ask, c10Bid] .ask "BTC/USDT" "t" = [c10Ask] := by decide
  have hgb : getOrders [c10Ask, c10Bid] .bid "BTC/USDT" "t" = [c10Bid] := by decide
  have hloop : matchBidsLoop 100 "dataset" "t" "BTC/USDT" 0 [c10Bid] =
      ([{ mkSale 100 "t" "BTC/USDT" "dataset" "dataset" with amount := 0 }], 0,
        [{ c10Bid with amount := c10Bid.amount - 0 }]) := by
    have h1 : ¬ c10Bid.amount = (0 : ℚ) := by norm_num [c10Bid]
    have h2 : (0 : ℚ) < c10Bid.amount := by norm_num [c10Bid]
    simp [matchBidsLoop, c10Bid, h1, h2]
  refine ⟨?_, rfl, ?_⟩
  · refine ⟨[c10Ask], [c10Bid],
      ⟨by rw [hga], by simp⟩, ⟨by rw [hgb], by simp⟩, ?_⟩
    simp [matchAsksLoop, c10Ask, hloop]
  · simp only [matchAsksLoop, c10Ask, hloop]
    norm_num [matchAsksLoop, c10Bid]

-- Claim C4: amount conservation in matching

theorem matchBidsLoop_sales_le (askPrice : ℚ) (askUser ts prod : String) :
    ∀ (bids : List OrderBookEntry) (a : ℚ), 0 ≤ a →
      amountSum (matchBidsLoop askPrice askUser ts prod a bids).1 ≤ a := by
  intro bids
  induction bids with
  | nil =>
    intro a ha
    simpa [matchBidsLoop, amountSum] using ha
  | cons bid rest ih =>
    intro a ha
    by_cases h0 : askPrice ≤ bid.price
    · by_cases h1 : bid.amount = a
      · simp [matchBidsLoop, h0, h1, amountSum]
      · by_cases h2 : a < bid.amount
        · simp [matchBidsLoop, h0, h1, h2, amountSum]
        · by_cases h3 : bid.amount < a ∧ 0 < bid.amount
          · have hrec := ih (a - bid.amount) (by linarith [h3.1])
            simp only [matchBidsLoop, if_pos h0, if_neg h1, if_neg h2, if_pos h3,
              amountSum, List.map_cons, List.sum_cons] at hrec ⊢
            linarith
          · have hrec := ih a ha
            simpa [matchBidsLoop, h0, h1, h2, h3] using hrec
    · have hrec := ih a ha
      simpa [matchBidsLoop, h0] using hrec

theorem matchBidsLoop_bids_sum (askPrice : ℚ) (askUser ts prod : String) :
    ∀ (bids : List OrderBookEntry) (a : ℚ),
      amountSum (matchBidsLoop askPrice askUser ts prod a bids).2.2 =
        amountSum bids - amountSum (matchBidsLoop askPrice askUser ts prod a bids).1 := by
  intro bids
  induction bids with
  | nil => intro a; simp [matchBidsLoop, amountSum]
  | cons bid rest ih =>
    intro a
    by_cases h0 : askPrice ≤ bid.price
    · by_cases h1 : bid.amount = a
      · simp [matchBidsLoop, h0, h1, amountSum]
      · by_cases h2 : a < bid.amount
        · simp [matchBidsLoop, h0, h1, h2, amountSum]
          ring
        · by_cases h3 : bid.amount < a ∧ 0 < bid.amount
          · have hrec := ih (a - bid.amount)
            simp only [matchBidsLoop, if_pos h0, if_neg h1, if_neg h2, if_pos h3,
              amountSum, List.map_cons, List.sum_cons] at hrec ⊢
            linarith
          · have hrec := ih a
            simp only [matchBidsLoop, if_pos h0, if_neg h1, if_neg h2, if_neg h3,
              amountSum, List.map_cons, List.sum_cons] at hrec ⊢
            linarith
    · have hrec := ih a
      simp only [matchBidsLoop, if_neg h0, amountSum, List.map_cons,
        List.sum_cons] at hrec ⊢
      linarith

theorem matchBidsLoop_bids_bounds (askPrice : ℚ) (askUser ts prod : String) :
    ∀ (bids : List OrderBookEntry) (a : ℚ), 0 ≤ a → (∀ b ∈ bids, 0 ≤ b.amount) →
      List.Forall₂ (fun b b' => 0 ≤ b'.amount ∧ b'.amount ≤ b.amount) bids
        (matchBidsLoop askPrice askUser ts prod a bids).2.2 := by
  intro bids
  induction bids with
  | nil => intro a _ _; simp [matchBidsLoop]
  | cons bid rest ih =>
    intro a ha hbids
    have hbid : 0 ≤ bid.amount := hbids bid (List.mem_cons_self bid rest)
    have hrest : ∀ b ∈ rest, 0 ≤ b.amount :=
      fun b hb => hbids b (List.mem_cons_of_mem bid hb)
    have hrefl : List.Forall₂ (fun b b' => 0 ≤ b'.amount ∧ b'.amount ≤ b.amount)
        rest rest :=
      List.forall₂_same.mpr (fun b hb => ⟨hrest b hb, le_refl _⟩)
    by_cases h0 : askPrice ≤ bid.price
    · by_cases h1 : bid.amount = a
      · simp only [matchBidsLoop, if_pos h0, if_pos h1]
        exact List.Forall₂.cons (by simp [hbid]) hrefl
      · by_cases h2 : a < bid.amount
        · simp only [matchBidsLoop, if_pos h0, if_neg h1, if_pos h2]
          exact List.Forall₂.cons
            ⟨sub_nonneg.mpr (le_of_lt h2), sub_le_self bid.amount ha⟩ hrefl
        · by_cases h3 : bid.amount < a ∧ 0 < bid.amount
          · simp only [matchBidsLoop, if_pos h0, if_neg h1, if_neg h2, if_pos h3]
            exact List.Forall₂.cons (by simp [hbid])
              (ih (a - bid.amount) (by linarith [h3.1]) hrest)
          · simp only [matchBidsLoop, if_pos h0, if_neg h1, if_neg h2, if_neg h3]
            exact List.Forall₂.cons ⟨hbid, le_refl _⟩ (ih a ha hrest)
    · simp only [matchBidsLoop, if_neg h0]
      exact List.Forall₂.cons ⟨hbid, le_refl _⟩ (ih a ha hrest)

theorem forall₂_bounds_trans :
    ∀ {l1 l2 l3 : List OrderBookEntry},
      List.Forall₂ (fun b b' => 0 ≤ b'.amount ∧ b'.amount ≤ b.amount) l1 l2 →
      List.Forall₂ (fun b b' => 0 ≤ b'.amount ∧ b'.amount ≤ b.amount) l2 l3 →
      List.Forall₂ (fun b b' => 0 ≤ b'.amount ∧ b'.amount ≤ b.amount) l1 l3 := by
  intro l1 l2 l3 h12
  induction h12 generalizing l3 with
  | nil =>
    intro h23
    cases h23
    exact List.Forall₂.nil
  | cons hab h' ih =>
    intro h23
    cases h23 with
    | cons hbc h'' =>
      exact List.Forall₂.cons ⟨hbc.1, le_trans hbc.2 hab.2⟩ (ih h'')

theorem forall₂_bounds_nonneg :
    ∀ {l l' : List OrderBookEntry},
      List.Forall₂ (fun b b' => 0 ≤ b'.amount ∧ b'.amount ≤ b.amount) l l' →
      ∀ b' ∈ l', 0 ≤ b'.amount := by
  intro l l' h
  induction h with
  | nil => intro b' hb'; exact absurd hb' (List.not_mem_nil b')
  | cons hab h' ih =>
    intro b' hb'
    rcases List.mem_cons.mp hb' with h | h
    · exact h ▸ hab.1
    · exact ih b' h

theorem matchAsksLoop_sales_le_asks (ts prod : String) :
    ∀ (asks bids : List OrderBookEntry), (∀ e ∈ asks, 0 ≤ e.amount) →
      amountSum (matchAsksLoop ts prod asks bids).1 ≤ amountSum asks := by
  intro asks
  induction asks with
  | nil => intro bids _; simp [matchAsksLoop, amountSum]
  | cons ask restAsks ih =>
    intro bids hasks
    have h1 := matchBidsLoop_sales_le ask.price ask.username ts prod bids ask.amount
      (hasks ask (List.mem_cons_self ask restAsks))
    have h2 := ih (matchBidsLoop ask.price ask.username ts prod ask.amount bids).2.2
      (fun e he => hasks e (List.mem_cons_of_mem ask he))
    simp only [matchAsksLoop, amountSum, List.map_append, List.sum_append,
      List.map_cons, List.sum_cons] at h1 h2 ⊢
    linarith

theorem matchAsksLoop_bids_sum (ts prod : String) :
    ∀ (asks bids : List OrderBookEntry),
      amountSum (matchAsksLoop ts prod asks bids).2 =
        amountSum bids - amountSum (matchAsksLoop ts prod asks bids).1 := by
  intro asks
  induction asks with
  | nil => intro bids; simp [matchAsksLoop, amountSum]
  | cons ask restAsks ih =>
    intro bids
    have h1 := matchBidsLoop_bids_sum ask.price ask.username ts prod bids ask.amount
    have h2 := ih (matchBidsLoop ask.price ask.username ts prod ask.amount bids).2.2
    simp only [matchAsksLoop, amountSum, List.map_append, List.sum_append] at h1 h2 ⊢
    linarith

theorem matchAsksLoop_bids_bounds (ts prod : String) :
    ∀ (asks bids : List OrderBookEntry), (∀ e ∈ asks, 0 ≤ e.amount) →
      (∀ b ∈ bids, 0 ≤ b.amount) →
      List.Forall₂ (fun b b' => 0 ≤ b'.amount ∧ b'.amount ≤ b.amount) bids
        (matchAsksLoop ts prod asks bids).2 := by
  intro asks
  induction asks with
  | nil =>
    intro bids _ hbids
    simp only [matchAsksLoop]
    exact List.forall₂_same.mpr (fun b hb => ⟨hbids b hb, le_refl _⟩)
  | cons ask restAsks ih =>
    intro bids hasks hbids
    have h1 := matchBidsLoop_bids_bounds ask.price ask.username ts prod bids ask.amount
      (hasks ask (List.mem_cons_self ask restAsks)) hbids
    have h2 := ih (matchBidsLoop ask.price ask.username ts prod ask.amount bids).2.2
      (fun e he => hasks e (List.mem_cons_of_mem ask he))
      (forall₂_bounds_nonneg h1)
    simp only [matchAsksLoop]
    exact forall₂_bounds_trans h1 h2

/-- Claim C4 (amended).  For a single match call on working asks/bids lists
satisfying the data-model invariant (all resting amounts non-negative): the
summed trade amounts never exceed the summed original ask amounts nor the
summed original bid amounts; on the bid side, each working bid ends the call
with an amount between 0 and its original amount and the total decrease of
the bids equals the total traded amount — hence a bid whose entire amount is
consumed ends the call with amount 0.  The amendment drops the corresponding
clause for asks: an ask's working amount is only decremented on partial
fills and is NOT set to 0 when the ask is fully filled by the equal-amounts
or bid-greater branch (see the counterexample). -/
theorem claim_C4 (timestamp product : String) (asks bids : List OrderBookEntry)
    (hasks : ∀ e ∈ asks, 0 ≤ e.amount) (hbids : ∀ e ∈ bids, 0 ≤ e.amount) :
    amountSum (matchAsksLoop timestamp product asks bids).1 ≤ amountSum asks ∧
    amountSum (matchAsksLoop timestamp product asks bids).1 ≤ amountSum bids ∧
    amountSum (matchAsksLoop timestamp product asks bids).2 =
      amountSum bids - amountSum (matchAsksLoop timestamp product asks bids).1 ∧
    List.Forall₂ (fun b b' => 0 ≤ b'.amount ∧ b'.amount ≤ b.amount) bids
      (matchAsksLoop timestamp product asks bids).2 := by
  have hb := matchAsksLoop_bids_bounds timestamp product asks bids hasks hbids
  have hsum := matchAsksLoop_bids_sum timestamp product asks bids
  have hfin : 0 ≤ amountSum (matchAsksLoop timestamp product asks bids).2 := by
    unfold amountSum
    refine List.sum_nonneg ?_
    intro x hx
    obtain ⟨e, he, rfl⟩ := List.mem_map.mp hx
    exact forall₂_bounds_nonneg hb e he
  refine ⟨matchAsksLoop_sales_le_asks timestamp product asks bids hasks, ?_, hsum, hb⟩
  linarith

/-- Claim C4, counterexample to the claim as stated: an ask of amount 5 fully
filled by an equal bid produces a trade of its entire amount 5, yet its
working amount at the end of the call is still 5, not 0 — the code never
zeroes the ask's amount on a full fill. -/
theorem claim_C4_counterexample :
    (matchBidsLoop 7 "dataset" "t" "P" 5 [c4Bid]).1 =
      [{ mkSale 7 "t" "P" "dataset" "dataset" with amount := 5 }] ∧
    amountSum (matchBidsLoop 7 "dataset" "t" "P" 5 [c4Bid]).1 = 5 ∧
    (matchBidsLoop 7 "dataset" "t" "P" 5 [c4Bid]).2.1 = 5 ∧
    (matchBidsLoop 7 "dataset" "t" "P" 5 [c4Bid]).2.1 ≠ 0 := by
  refine ⟨by decide, ?_, by decide, by decide⟩
  norm_num [matchBidsLoop, amountSum, c4Bid]

/-- Witness for claim C4: the conservation bounds evaluated on one concrete
ask (amount 2) against one concrete bid (amount 1, higher price). -/
theorem claim_C4_witness :
    amountSum (matchAsksLoop "t" "P" [c4WAsk] [c4WBid]).1 ≤ amountSum [c4WAsk] ∧
    amountSum (matchAsksLoop "t" "P" [c4WAsk] [c4WBid]).1 ≤ amountSum [c4WBid] ∧
    amountSum (matchAsksLoop "t" "P" [c4WAsk] [c4WBid]).2 =
      amountSum [c4WBid] - amountSum (matchAsksLoop "t" "P" [c4WAsk] [c4WBid]).1 ∧
    List.Forall₂ (fun b b' => 0 ≤ b'.amount ∧ b'.amount ≤ b.amount) [c4WBid]
      (matchAsksLoop "t" "P" [c4WAsk] [c4WBid]).2 :=
  claim_C4 "t" "P" [c4WAsk] [c4WBid]
    (by intro e he; simp only [List.mem_singleton] at he; norm_num [he, c4WAsk])
    (by intro e he; simp only [List.mem_singleton] at he; norm_num [he, c4WBid])

-- Sortedness of the book and timestamp queries

theorem reachable_sorted {b : List OrderBookEntry} (hb : Reachable b) :
    sortedByTs b := by
  induction hb with
  | seed => unfold sortedByTs; decide
  | insert o _ hins _ => exact hins.2

theorem reachable_ne_nil {b : List OrderBookEntry} (hb : Reachable b) : b ≠ [] := by
  induction hb with
  | seed => decide
  | insert o hr hins ih =>
    intro hnil
    have hlen := hins.1.length_eq
    rw [hnil] at hlen
    simp at hlen

theorem sorted_head_min (x : OrderBookEntry) (xs : List OrderBookEntry)
    (hs : sortedByTs (x :: xs)) : ∀ e ∈ x :: xs, strLe x.timestamp e.timestamp := by
  intro e he
  rcases List.mem_cons.mp he with rfl | hmem
  · exact strLe_refl _
  · exact strLe_iff_not_strLt.mpr (List.rel_of_pairwise_cons hs hmem)

theorem sorted_getLast_max :
    ∀ (l : List OrderBookEntry), sortedByTs l → ∀ (h : l ≠ []),
      ∀ e ∈ l, strLe e.timestamp (l.getLast h).timestamp := by
  intro l
  induction l with
  | nil => intro _ h; exact absurd rfl h
  | cons x xs ih =>
    intro hs h e he
    cases xs with
    | nil =>
      have he' : e = x := List.mem_singleton.mp he
      subst he'
      exact strLe_refl _
    | cons y ys =>
      rw [List.getLast_cons (List.cons_ne_nil y ys)]
      rcases List.mem_cons.mp he with rfl | hmem
      · have hmem' : (y :: ys).getLast (List.cons_ne_nil y ys) ∈ y :: ys :=
          List.getLast_mem (List.cons_ne_nil y ys)
        exact strLe_iff_not_strLt.mpr (List.rel_of_pairwise_cons hs hmem')
      · exact ih (List.Pairwise.of_cons hs) (List.cons_ne_nil y ys) e hmem

theorem sorted_find?_least :
    ∀ (l : List OrderBookEntry), sortedByTs l → ∀ (t : String) (e : OrderBookEntry),
      l.find? (fun e => decide (strLt t e.timestamp)) = some e →
      e ∈ l ∧ strLt t e.timestamp ∧
        ∀ e' ∈ l, strLt t e'.timestamp → strLe e.timestamp e'.timestamp := by
  intro l
  induction l with
  | nil => intro _ t e hf; simp [List.find?] at hf
  | cons x xs ih =>
    intro hs t e hf
    by_cases hx : strLt t x.timestamp
    · rw [List.find?_cons_of_pos _ (by simp [hx])] at hf
      obtain rfl : x = e := Option.some.inj hf
      refine ⟨List.mem_cons_self x xs, hx, ?_⟩
      intro e' he' _
      rcases List.mem_cons.mp he' with rfl | hmem
      · exact strLe_refl _
      · exact strLe_iff_not_strLt.mpr (List.rel_of_pairwise_cons hs hmem)
    · rw [List.find?_cons_of_neg _ (by simp [hx])] at hf
      obtain ⟨hmem, hlt, hmin⟩ := ih (List.Pairwise.of_cons hs) t e hf
      refine ⟨List.mem_cons_of_mem x hmem, hlt, ?_⟩
      intro e' he' hlt'
      rcases List.mem_cons.mp he' with rfl | hmem'
      · exact absurd hlt' hx
      · exact hmin e' hmem' hlt'

theorem getNextTime_spec (b : List OrderBookEntry) (hs : sortedByTs b) (t : String) :
    ((∃ e ∈ b, strLt t e.timestamp) →
      ∃ u, getNextTime b t = some u ∧ (∃ e ∈ b, e.timestamp = u) ∧ strLt t u ∧
        ∀ e ∈ b, strLt t e.timestamp → strLe u e.timestamp) ∧
    ((∀ e ∈ b, ¬ strLt t e.timestamp) → getNextTime b t = getEarliestTime b) := by
  constructor
  · rintro ⟨e, he, hlt⟩
    cases hf : b.find? (fun e => decide (strLt t e.timestamp)) with
    | none =>
      have := List.find?_eq_none.mp hf e he
      simp [hlt] at this
    | some e0 =>
      obtain ⟨hmem, hlt0, hmin⟩ := sorted_find?_least b hs t e0 hf
      exact ⟨e0.timestamp, by simp [getNextTime, hf], ⟨e0, hmem, rfl⟩, hlt0, hmin⟩
  · intro hnone
    have hf : b.find? (fun e => decide (strLt t e.timestamp)) = none :=
      List.find?_eq_none.mpr (fun e he => by simp [hnone e he])
    simp [getNextTime, hf, getEarliestTime]

-- Claim C8

/-- Claim C8 (confirmed).  In every reachable book state (the seeded initial
collection followed by any sequence of `insertOrder` calls, each returning
any result `std::sort` may produce) the stored collection is non-empty and
sorted ascending by timestamp; consequently `getEarliestTime` returns the
minimum stored timestamp, and `getNextTime`'s break-at-first-greater scan
returns the smallest stored timestamp strictly greater than its argument
whenever one exists. -/
theorem claim_C8 (b : List OrderBookEntry) (hb : Reachable b) :
    sortedByTs b ∧ b ≠ [] ∧
    (∃ t0, getEarliestTime b = some t0 ∧ (∃ e ∈ b, e.timestamp = t0) ∧
      ∀ e ∈ b, strLe t0 e.timestamp) ∧
    (∀ t : String, ∀ e ∈ b, strLt t e.timestamp →
      ∃ u, getNextTime b t = some u ∧ (∃ e' ∈ b, e'.timestamp = u) ∧ strLt t u ∧
        ∀ e' ∈ b, strLt t e'.timestamp → strLe u e'.timestamp) := by
  have hs := reachable_sorted hb
  have hne := reachable_ne_nil hb
  refine ⟨hs, hne, ?_, ?_⟩
  · cases b with
    | nil => exact absurd rfl hne
    | cons x xs =>
      exact ⟨x.timestamp, rfl, ⟨x, List.mem_cons_self x xs, rfl⟩,
        sorted_head_min x xs hs⟩
  · intro t e he hlt
    exact (getNextTime_spec b hs t).1 ⟨e, he, hlt⟩

/-- Witness for claim C8: the conclusion evaluated at the seeded constructor
state. -/
theorem claim_C8_witness :
    sortedByTs seedOrders ∧ seedOrders ≠ [] ∧
    (∃ t0, getEarliestTime seedOrders = some t0 ∧
      (∃ e ∈ seedOrders, e.timestamp = t0) ∧
      ∀ e ∈ seedOrders, strLe t0 e.timestamp) ∧
    (∀ t : String, ∀ e ∈ seedOrders, strLt t e.timestamp →
      ∃ u, getNextTime seedOrders t = some u ∧
        (∃ e' ∈ seedOrders, e'.timestamp = u) ∧ strLt t u ∧
        ∀ e' ∈ seedOrders, strLt t e'.timestamp → strLe u e'.timestamp) :=
  claim_C8 seedOrders Reachable.seed

-- Claim C5

/-- Claim C5 (confirmed).  On every reachable book state, `getNextTime t`
returns the smallest stored timestamp strictly greater than `t` when one
exists; when no stored timestamp is strictly greater it wraps around and
returns the very first entry's timestamp (`getEarliestTime`); in particular,
called with the timestamp of the last-ordered entry it returns the first
entry's timestamp. -/
theorem claim_C5 (b : List OrderBookEntry) (hb : Reachable b) :
    (∀ t : String, (∃ e ∈ b, strLt t e.timestamp) →
      ∃ u, getNextTime b t = some u ∧ (∃ e ∈ b, e.timestamp = u) ∧ strLt t u ∧
        ∀ e ∈ b, strLt t e.timestamp → strLe u e.timestamp) ∧
    (∀ t : String, (∀ e ∈ b, strLe e.timestamp t) →
      getNextTime b t = getEarliestTime b) ∧
    (∀ h : b ≠ [], getNextTime b ((b.getLast h).timestamp) = getEarliestTime b) := by
  have hs := reachable_sorted hb
  refine ⟨?_, ?_, ?_⟩
  · intro t hex
    exact (getNextTime_spec b hs t).1 hex
  · intro t hall
    exact (getNextTime_spec b hs t).2
      (fun e he => strLe_iff_not_strLt.mp (hall e he))
  · intro h
    exact (getNextTime_spec b hs _).2
      (fun e he => strLe_iff_not_strLt.mp (sorted_getLast_max b hs h e he))

/-- Witness for claim C5: on the seed book, `getNextTime` of the first time
frame finds the second one, and of the last time frame wraps around to the
first entry's timestamp. -/
theorem claim_C5_witness :
    (∃ u, getNextTime seedOrders "2020/03/17 17:01:24" = some u ∧
      (∃ e ∈ seedOrders, e.timestamp = u) ∧ strLt "2020/03/17 17:01:24" u ∧
      ∀ e ∈ seedOrders, strLt "2020/03/17 17:01:24" e.timestamp →
        strLe u e.timestamp) ∧
    getNextTime seedOrders "2020/03/17 17:01:30" = getEarliestTime seedOrders :=
  ⟨(claim_C5 seedOrders Reachable.seed).1 "2020/03/17 17:01:24" (by decide),
   (claim_C5 seedOrders Reachable.seed).2.1 "2020/03/17 17:01:30" (by decide)⟩

-- Claim C7

/-- Claim C7 (amended).  `insertOrder` appends the given entry to the stored
collection and re-sorts the entire collection by timestamp ascending: some
allowed result always exists, and every allowed result holds exactly the old
entries plus the new one (element counts are preserved) in
timestamp-ascending order.  The amendment drops the stability clause: the
code sorts with `std::sort`, which does not guarantee stability, so entries
sharing a timestamp may end up in any relative order (see the
counterexample). -/
theorem claim_C7 (book : List OrderBookEntry) (o : OrderBookEntry) :
    (∃ book', insertOrder book o book') ∧
    (∀ book', insertOrder book o book' →
      (∀ e : OrderBookEntry, (book ++ [o]).count e = book'.count e) ∧
      book'.Pairwise (fun a b => strLe a.timestamp b.timestamp)) := by
  constructor
  · haveI htot : IsTotal OrderBookEntry (fun a b => ¬ compareByTimestamp b a) :=
      ⟨fun a b => by
        rcases strLe_total a.timestamp b.timestamp with h | h
        · exact Or.inl (strLe_iff_not_strLt.mp h)
        · exact Or.inr (strLe_iff_not_strLt.mp h)⟩
    haveI htrans : IsTrans OrderBookEntry (fun a b => ¬ compareByTimestamp b a) :=
      ⟨fun a b c h1 h2 => strLe_iff_not_strLt.mp
        (strLe_trans (strLe_iff_not_strLt.mpr h1) (strLe_iff_not_strLt.mpr h2))⟩
    exact ⟨List.insertionSort (fun a b => ¬ compareByTimestamp b a) (book ++ [o]),
      (List.perm_insertionSort _ _).symm,
      List.sorted_insertionSort _ _⟩
  · rintro book' ⟨hperm, hpair⟩
    exact ⟨fun e => hperm.count_eq e,
      hpair.imp (fun h => strLe_iff_not_strLt.mpr h)⟩

/-- Claim C7, counterexample to the claim as stated: inserting `c7E2` into
`[c7E1]` (equal timestamps) admits the result `[c7E2, c7E1]`, in which the
entries sharing a timestamp do NOT keep their relative insertion order —
`std::sort` guarantees sortedness and permutation but not stability, so the
tie-break-by-original-order clause is not ensured by the code. -/
theorem claim_C7_counterexample :
    insertOrder [c7E1] c7E2 [c7E2, c7E1] ∧ [c7E2, c7E1] ≠ [c7E1, c7E2] := by
  refine ⟨⟨List.Perm.swap c7E2 c7E1 [], by decide⟩, by decide⟩

/-- Witness for claim C7: for the concrete insertion of `c7W2` into
`[c7W1]`, the allowed result `[c7W1, c7W2]` preserves element counts and is
sorted by timestamp. -/
theorem claim_C7_witness :
    (∀ e : OrderBookEntry, ([c7W1] ++ [c7W2]).count e = [c7W1, c7W2].count e) ∧
    List.Pairwise (fun a b => strLe a.timestamp b.timestamp) [c7W1, c7W2] :=
  (claim_C7 [c7W1] c7W2).2 [c7W1, c7W2] ⟨List.Perm.refl _, by decide⟩

end MerkelRex
